import Mathlib

/-!
Verification of the novel-writer-agent persistence and statistics subsystems.

This file embeds, in Lean, the data model and operations of
`src/auto_save.py` (the `AutoSave` class: versioned draft saves, backups,
save-history listing, retention cleanup) and `src/writing_stats_logger.py`
(the `WritingStatsLogger` class: session logging and derived statistics),
and proves properties about them.

Modelling conventions:
* JSON values are the inductive `Val`; a Python `dict` is an
  insertion-ordered association list with unique keys (`Dict`), looked up by
  first occurrence, as CPython guarantees.
* A directory is a `List SaveFile`; a file records its name, its
  modification time as a `Nat`, its size in bytes, and its parsed JSON
  content (`none` when the file is unreadable or not valid JSON).
* The wall clock is passed explicitly: `tsName` models
  `datetime.now().strftime("%Y%m%d_%H%M%S")`, `tsIso` models
  `datetime.now().isoformat()`, `mtimeNow` the modification time stamped on
  a written file, and `today` the ordinal (`date.toordinal`) of the current
  calendar day.
* Calendar days are modelled by their ordinals (`Int`); `a - b` on Python
  `date` objects has `(a - b).days` equal to the difference of ordinals.
* Fallible Python code (statements that can raise an exception that the
  function does not catch) is modelled in `Except String`; exceptions that
  the source catches and logs are folded into the model directly.
* Python `list.sort` raises `TypeError` as soon as it compares two
  unorderable keys, and every key of a list of length at least two takes
  part in at least one comparison; the monadic insertion sort
  `sortHistoryDesc` below reproduces exactly this raising behaviour for the
  key types that actually occur (strings, numbers, `None`).
-/

namespace NovelWriter

/-- JSON-like values as produced by `json.load` (floats are not modelled;
none of the verified code paths manipulates them). -/
inductive Val where
  | vnull : Val
  | vbool : Bool → Val
  | vint : Int → Val
  | vstr : String → Val
  | vlist : List Val → Val
  | vdict : List (String × Val) → Val

/-- A Python dictionary with string keys: an insertion-ordered association
list whose keys are unique. -/
abbrev Dict := List (String × Val)

/-- Lookup by first occurrence, modelling `d.get(k)` / `d[k]` on a Python
dict (whose keys are unique, so first occurrence is the occurrence). -/
def dictGet (k : String) : Dict → Option Val
  | [] => none
  | (k', v) :: rest => if k' = k then some v else dictGet k rest

/-- Key assignment `d[k] = v` on a Python dict: overwrites in place when the
key exists (keeping its position), appends otherwise. -/
def dictSet (k : String) (v : Val) : Dict → Dict
  | [] => [(k, v)]
  | (k', v') :: rest => if k' = k then (k, v) :: rest else (k', v') :: dictSet k v rest

/-- Word count of a string under Python `str.split()`: split on whitespace
runs, dropping empty pieces. -/
def pyWords (s : String) : Nat :=
  ((s.split (fun c => c.isWhitespace)).filter (fun w => ¬ w.isEmpty)).length

mutual

/-- Python `repr` of a JSON value (used for elements inside containers). -/
def pyRepr : Val → String
  | Val.vnull => "None"
  | Val.vbool true => "True"
  | Val.vbool false => "False"
  | Val.vint n => toString n
  | Val.vstr s => "\x27" ++ s ++ "\x27"
  | Val.vlist l => "[" ++ pyReprList l ++ "]"
  | Val.vdict d => "\x7b" ++ pyReprDict d ++ "\x7d"

/-- Comma-separated `repr`s of the elements of a list. -/
def pyReprList : List Val → String
  | [] => ""
  | [v] => pyRepr v
  | v :: rest => pyRepr v ++ ", " ++ pyReprList rest

/-- Comma-separated `repr`s of the items of a dict. -/
def pyReprDict : List (String × Val) → String
  | [] => ""
  | [(k, v)] => "\x27" ++ k ++ "\x27: " ++ pyRepr v
  | (k, v) :: rest => "\x27" ++ k ++ "\x27: " ++ pyRepr v ++ ", " ++ pyReprDict rest

end

/-- Python `str()` of a JSON value (top level: strings print bare). -/
def pyStr (v : Val) : String :=
  match v with
  | Val.vstr s => s
  | other => pyRepr other

/-- Words contributed by the `content` field of `story_data` in `_calculate_word_count`:
a string is split; a list contributes its string elements; anything else
contributes nothing. -/
def contentWords : Val → Nat
  | Val.vstr s => pyWords s
  | Val.vlist items =>
      (items.map (fun it => match it with | Val.vstr s => pyWords s | _ => 0)).sum
  | _ => 0

/-- Words contributed by one element of the `pages` field of `story_data`: a dict with a
`content` key contributes the split of the `str()` of its `content` value, a string is split,
anything else contributes nothing. -/
def pageWords : Val → Nat
  | Val.vdict p =>
      match dictGet ("content") p with
      | some c => pyWords (pyStr c)
      | none => 0
  | Val.vstr s => pyWords s
  | _ => 0

/-- Iterating `for page in ...` over the `pages` value: a list yields its elements,
a string yields its one-character strings, a dict yields its keys (strings),
and any other value raises `TypeError` (uncaught in the source). -/
def pagesWords : Val → Except String Nat
  | Val.vlist pages => pure ((pages.map pageWords).sum)
  | Val.vstr s => pure ((s.toList.map (fun c => pyWords (String.mk [c]))).sum)
  | Val.vdict d => pure ((d.map (fun kv => pyWords kv.fst)).sum)
  | _ => Except.error ("TypeError: object is not iterable")

/-- Embedding of `AutoSave._calculate_word_count`. -/
def calculate_word_count (story : Dict) : Except String Nat := do
  let c := match dictGet ("content") story with
    | some v => contentWords v
    | none => 0
  let p ← match dictGet ("pages") story with
    | some v => pagesWords v
    | none => pure 0
  pure (c + p)

/-- One file of a directory: name, modification time, size in bytes, and
parsed JSON content (`none` when unreadable or not valid JSON). The byte
size of files written by the model itself is not tracked (set to 0). -/
structure SaveFile where
  name : String
  mtime : Nat
  size : Nat
  content : Option Val

/-- Default constructor arguments of `AutoSave.__init__`. -/
def saveDirName : String := "saves"

/-- Default backup directory name. -/
def backupDirName : String := "backups"

/-- The `save_interval` attribute set by `AutoSave.__init__`. -/
def save_interval : Nat := 300

/-- The `max_versions` attribute set by `AutoSave.__init__`. -/
def max_versions : Nat := 10

/-- The `max_backups` attribute set by `AutoSave.__init__`. -/
def max_backups : Nat := 5

/-- Whether a name matches the glob pattern `story_draft_*.json` (`*`
matches any, possibly empty, run of characters): the name starts with
`story_draft_`, ends with `.json`, and is long enough that the two do not
overlap. -/
def storyDraftGlob (s : String) : Bool :=
  ("story_draft_").toList.isPrefixOf s.toList && (".json").toList.isSuffixOf s.toList
    && decide (17 ≤ s.length)

/-- Whether a name matches the glob pattern `backup_*.json`. -/
def backupGlob (s : String) : Bool :=
  ("backup_").toList.isPrefixOf s.toList && (".json").toList.isSuffixOf s.toList
    && decide (12 ≤ s.length)

/-- The result of `save_dir.glob("story_draft_*.json")`. -/
def globDrafts (dir : List SaveFile) : List SaveFile :=
  dir.filter (fun f => storyDraftGlob f.name)

/-- The result of `backup_dir.glob("backup_*.json")`. -/
def globBackups (dir : List SaveFile) : List SaveFile :=
  dir.filter (fun f => backupGlob f.name)

/-- Writing a file into a directory: replace the file of the same name (the
filesystem keeps one file per name), append otherwise. -/
def writeFile (dir : List SaveFile) (f : SaveFile) : List SaveFile :=
  if dir.any (fun g => g.name = f.name) then
    dir.map (fun g => if g.name = f.name then f else g)
  else dir ++ [f]

/-- Comparison of files by modification time, the sort key of
`_cleanup_old_versions`. -/
def mtimeLE (a b : SaveFile) : Prop := a.mtime ≤ b.mtime

instance : DecidableRel mtimeLE := fun a b => Nat.decLe a.mtime b.mtime

instance : IsTotal SaveFile mtimeLE := ⟨fun a b => Nat.le_total a.mtime b.mtime⟩

instance : IsTrans SaveFile mtimeLE := ⟨fun _ _ _ h1 h2 => Nat.le_trans h1 h2⟩

/-- Shared shape of `_cleanup_old_versions` and `_cleanup_old_backups`:
glob the matching files, and when more than `maxKeep` match, sort them by
modification time (oldest first) and delete all but the newest `maxKeep`. -/
def cleanupByMtime (maxKeep : Nat) (pat : String → Bool) (dir : List SaveFile) : List SaveFile :=
  if maxKeep < (dir.filter (fun f => pat f.name)).length then
    dir.filter (fun f =>
      ! ((List.insertionSort mtimeLE (dir.filter (fun f2 => pat f2.name))).take
          ((dir.filter (fun f2 => pat f2.name)).length - maxKeep)).any
        (fun g => g.name = f.name))
  else dir

/-- Embedding of `AutoSave._cleanup_old_versions`. -/
def cleanup_old_versions (dir : List SaveFile) : List SaveFile :=
  cleanupByMtime max_versions storyDraftGlob dir

/-- Modelled from the spec: the body of `AutoSave._cleanup_old_backups` is
missing from the sources (`auto_save.py` is truncated inside
`_cleanup_old_versions`; only the call at line 157 remains). The spec
describes the Backup Store as a "parallel mechanism, same pattern, separate
retention count", so the backup cleanup is modelled as the same
trim-oldest-by-mtime mechanism over `backup_*.json` with `max_backups`. -/
def cleanup_old_backups (dir : List SaveFile) : List SaveFile :=
  cleanupByMtime max_backups backupGlob dir

/-- Python `int()`-valued JSON values as ordered by `max`: ints, and bools
(which are ints in Python). -/
def asInt : Val → Option Int
  | Val.vint n => some n
  | Val.vbool b => some (if b then 1 else 0)
  | _ => none

/-- The value a save file contributes to the `versions` list of
`_get_next_version`: present exactly when the file parses to a dict whose
`save_metadata` is a dict containing a `version` key. Every other shape
either contributes nothing or raises inside the per-file `try`, which the
source turns into `continue`. -/
def extractVersion (f : SaveFile) : Option Val :=
  match f.content with
  | some (Val.vdict d) =>
      match dictGet ("save_metadata") d with
      | some (Val.vdict m) => dictGet ("version") m
      | _ => none
  | _ => none

/-- Python `max(l, default=d)`: the greatest element, or `d` when empty. -/
def pyMaxInt (l : List Int) (dflt : Int) : Int :=
  match l with
  | [] => dflt
  | x :: xs => xs.foldl max x

/-- Embedding of `AutoSave._get_next_version`: collect the embedded version
values (`versions`) of the globbed save files and return
`max(versions, default=0) + 1`. When some collected version is not a number
the Python `max`/`+ 1` raises `TypeError` out of the function, modelled as
an error. -/
def get_next_version (dir : List SaveFile) : Except String Int :=
  match ((globDrafts dir).filterMap extractVersion).mapM asInt with
  | some ints => pure (pyMaxInt ints 0 + 1)
  | none => Except.error ("TypeError: cannot order non-numeric version values")

/-- Result of a completed save or backup: the returned path, the directory
contents afterwards, and the (mutated in place) story dictionary. -/
structure SaveResult where
  path : String
  dir : List SaveFile
  story : Dict

/-- The filename chosen by `save_story_draft`: the one given by the caller, or a
timestamped default. -/
def draftFileName (tsName : String) (filename : Option String) : String :=
  filename.getD ("story_draft_" ++ tsName ++ ".json")

/-- Embedding of `AutoSave.save_story_draft`: assign `save_metadata` (with
the next version number and the word count), write the draft, and trim old
versions. -/
def save_story_draft (tsName tsIso : String) (mtimeNow : Nat) (story : Dict)
    (filename : Option String) (dir : List SaveFile) : Except String SaveResult := do
  let fname := draftFileName tsName filename
  let v ← get_next_version dir
  let wc ← calculate_word_count story
  let meta : Dict :=
    [("timestamp", Val.vstr tsIso), ("version", Val.vint v),
     ("word_count", Val.vint (Int.ofNat wc)), ("auto_saved", Val.vbool true)]
  let story2 := dictSet ("save_metadata") (Val.vdict meta) story
  let nf : SaveFile := ⟨fname, mtimeNow, 0, some (Val.vdict story2)⟩
  pure ⟨saveDirName ++ "/" ++ fname, cleanup_old_versions (writeFile dir nf), story2⟩

/-- Embedding of `AutoSave.create_backup`: assign `backup_metadata`, write
the timestamped backup, and trim old backups. -/
def create_backup (tsName tsIso : String) (mtimeNow : Nat) (story : Dict)
    (bdir : List SaveFile) : Except String SaveResult := do
  let fname := "backup_" ++ tsName ++ ".json"
  let wc ← calculate_word_count story
  let meta : Dict :=
    [("timestamp", Val.vstr tsIso), ("word_count", Val.vint (Int.ofNat wc)),
     ("backup_type", Val.vstr ("manual"))]
  let story2 := dictSet ("backup_metadata") (Val.vdict meta) story
  let nf : SaveFile := ⟨fname, mtimeNow, 0, some (Val.vdict story2)⟩
  pure ⟨backupDirName ++ "/" ++ fname, cleanup_old_backups (writeFile bdir nf), story2⟩

/-- One row of the list returned by `get_save_history`. -/
structure HistoryEntry where
  filename : String
  path : String
  timestamp : Option Val
  version : Option Val
  word_count : Val
  size_bytes : Nat

/-- The history entry built for one globbed save file, or `none` when the
per-file `try` of `get_save_history` catches an exception (unreadable file,
invalid JSON, non-dict top level, or non-dict `save_metadata`). A parsed
dict without `save_metadata` yields the defaults `metadata.get(...)`
produces on the empty dict. -/
def entryOfFile (f : SaveFile) : Option HistoryEntry :=
  match f.content with
  | some (Val.vdict d) =>
      match dictGet ("save_metadata") d with
      | some (Val.vdict m) =>
          some ⟨f.name, saveDirName ++ "/" ++ f.name, dictGet ("timestamp") m,
                dictGet ("version") m, (dictGet ("word_count") m).getD (Val.vint 0), f.size⟩
      | some _ => none
      | none =>
          some ⟨f.name, saveDirName ++ "/" ++ f.name, none, none, Val.vint 0, f.size⟩
  | _ => none

/-- Python comparison `a < b` on sort keys: defined on two strings and on
two numbers (bools being ints); every other pair raises `TypeError`. -/
def pyLt (a b : Val) : Except String Bool :=
  match a, b with
  | Val.vstr x, Val.vstr y => pure (decide (x < y))
  | x, y =>
      match asInt x, asInt y with
      | some m, some n => pure (decide (m < n))
      | _, _ => Except.error ("TypeError: unorderable types in sort")

/-- Comparison of two timestamp keys, where a missing timestamp is the
Python value `None`, which every comparison against raises on. -/
def keyLt (a b : Option Val) : Except String Bool :=
  match a, b with
  | some x, some y => pyLt x y
  | _, _ => Except.error ("TypeError: NoneType is unorderable")

/-- Insert an entry into a descending-sorted prefix of the history, placing
it before the first entry with a strictly smaller timestamp key; raises as
Python does when two unorderable keys are compared. -/
def insertDesc (e : HistoryEntry) : List HistoryEntry → Except String (List HistoryEntry)
  | [] => pure [e]
  | f :: fs => do
      let b ← keyLt f.timestamp e.timestamp
      if b then
        pure (e :: f :: fs)
      else do
        let r ← insertDesc e fs
        pure (f :: r)

/-- The sort `history.sort(key=lambda x: x.get("timestamp", ""), reverse=True)`
at the end of `get_save_history`, as a stable descending insertion sort; it
succeeds, with the same raising behaviour as CPython, on every list of
string/number/`None` keys. -/
def sortHistoryDesc (l : List HistoryEntry) : Except String (List HistoryEntry) :=
  l.foldlM (fun acc e => insertDesc e acc) []

/-- Embedding of `AutoSave.get_save_history`. -/
def get_save_history (dir : List SaveFile) : Except String (List HistoryEntry) :=
  sortHistoryDesc ((globDrafts dir).filterMap entryOfFile)

/-- A `datetime` value, carrying its `isoformat()` string and the ordinal of
its calendar day (`.date().toordinal()`). -/
structure Timestamp where
  iso : String
  day : Int

/-- One entry of the JSON writing log. -/
structure LogEntry where
  date : Timestamp
  word_count : Int
  page_summary : String
  total_words : Int
  chapter : Int
  inspiration_sources : List String
  writing_duration_minutes : Option Int
  metadata : Dict

/-- Insert a value into an ascending duplicate-free sorted list, keeping it
sorted and duplicate-free. -/
def insertUniq {α : Type} [LinearOrder α] (d : α) : List α → List α
  | [] => [d]
  | e :: es => if d < e then d :: e :: es else if d = e then e :: es else e :: insertUniq d es

/-- Python `sorted(set(l))`: the distinct elements of `l` in ascending
order. -/
def pySortedSet {α : Type} [LinearOrder α] (l : List α) : List α :=
  l.foldl (fun acc d => insertUniq d acc) []

/-- The loop of `_calculate_current_streak`: walk the distinct writing days
in descending order, extending the streak while the loop condition
`day == current_date or (current_date - day).days == streak` holds. -/
def streakLoop : Nat → Int → List Int → Nat
  | streak, _, [] => streak
  | streak, current, d :: ds =>
      if d = current ∨ current - d = (streak : Int) then streakLoop (streak + 1) d ds
      else streak

/-- Embedding of `WritingStatsLogger._calculate_current_streak`, with
`today` standing for `datetime.now().date()`. -/
def calculate_current_streak (today : Int) (history : List LogEntry) : Nat :=
  match history with
  | [] => 0
  | _ => streakLoop 0 today ((pySortedSet (history.map (fun e => e.date.day))).reverse)

/-- The loop of `_calculate_longest_streak`: walk the distinct writing days
in ascending order, growing the current run on a gap of exactly one day and
resetting it otherwise. -/
def longestLoop : Int → Nat → Nat → List Int → Nat
  | _, _, longest, [] => longest
  | prev, cur, longest, d :: ds =>
      if d - prev = 1 then longestLoop d (cur + 1) (max longest (cur + 1)) ds
      else longestLoop d 1 longest ds

/-- Embedding of `WritingStatsLogger._calculate_longest_streak`. -/
def calculate_longest_streak (history : List LogEntry) : Nat :=
  match history with
  | [] => 0
  | _ =>
      match pySortedSet (history.map (fun e => e.date.day)) with
      | [] => 0
      | d :: ds => longestLoop d 1 1 ds

/-- Python `max(history, key=lambda x: x["word_count"])`: the first entry
attaining the maximal word count. -/
def maxByWordCount (best : LogEntry) : List LogEntry → LogEntry
  | [] => best
  | e :: es => maxByWordCount (if best.word_count < e.word_count then e else best) es

/-- The dictionary returned by `get_writing_statistics`. -/
structure WritingStats where
  total_sessions : Nat
  total_words_written : Int
  average_words_per_session : Int
  total_writing_days : Nat
  current_streak : Nat
  longest_streak : Nat
  most_productive_day : Option (String × Int)
  average_session_duration : Int

/-- Embedding of `WritingStatsLogger.get_writing_statistics` over the parsed
history (`get_writing_history(0)` returns every logged entry); `//` is
Python floor division, `Int.fdiv`. -/
def get_writing_statistics (today : Int) (history : List LogEntry) : WritingStats :=
  match history with
  | [] => ⟨0, 0, 0, 0, 0, 0, none, 0⟩
  | e0 :: rest =>
      let hist := e0 :: rest
      let total_sessions := hist.length
      let total_words_written := (hist.map (fun e => e.word_count)).sum
      let average_words :=
        if 0 < total_sessions then Int.fdiv total_words_written (Int.ofNat total_sessions) else 0
      let mp := maxByWordCount e0 rest
      let durations := hist.filterMap (fun e => e.writing_duration_minutes)
      let avg_duration :=
        if durations.isEmpty then 0 else Int.fdiv durations.sum (Int.ofNat durations.length)
      { total_sessions := total_sessions
        total_words_written := total_words_written
        average_words_per_session := average_words
        total_writing_days := (pySortedSet (hist.map (fun e => e.date.iso.take 10))).length
        current_streak := calculate_current_streak today hist
        longest_streak := calculate_longest_streak hist
        most_productive_day := some (mp.date.iso, mp.word_count)
        average_session_duration := avg_duration }

/-- State of the two log files kept by `WritingStatsLogger`: the parsed
content of the JSON log (`none` when the file is not valid JSON) and the
rows of the CSV log. -/
structure LoggerState where
  jsonFile : Option Val
  csvRows : List (List String)

/-- The log entry dictionary built by `log_writing_session`, with the
source defaults applied (`date or now`, `inspiration_sources or []`,
`metadata or` the empty dict). -/
def sessionEntry (now : Timestamp) (word_count : Int) (page_summary : String)
    (total_words : Int) (chapter : Int) (inspiration_sources : Option (List String))
    (writing_duration_minutes : Option Int) (metadata : Option Dict)
    (date : Option Timestamp) : LogEntry :=
  { date := date.getD now
    word_count := word_count
    page_summary := page_summary
    total_words := total_words
    chapter := chapter
    inspiration_sources := inspiration_sources.getD []
    writing_duration_minutes := writing_duration_minutes
    metadata := metadata.getD [] }

/-- The JSON value serialized for one log entry. -/
def logEntryVal (e : LogEntry) : Val :=
  Val.vdict
    [("date", Val.vstr e.date.iso), ("word_count", Val.vint e.word_count),
     ("page_summary", Val.vstr e.page_summary), ("total_words", Val.vint e.total_words),
     ("chapter", Val.vint e.chapter),
     ("inspiration_sources", Val.vlist (e.inspiration_sources.map Val.vstr)),
     ("writing_duration_minutes",
       match e.writing_duration_minutes with
       | none => Val.vnull
       | some n => Val.vint n),
     ("metadata", Val.vdict e.metadata)]

/-- The CSV row written for one log entry (`csv.writer` renders `None` as
the empty cell and joins the inspiration sources with a semicolon). -/
def csvRow (e : LogEntry) : List String :=
  [e.date.iso, toString e.word_count, e.page_summary, toString e.total_words,
   toString e.chapter, String.intercalate ("; ") e.inspiration_sources,
   match e.writing_duration_minutes with
   | none => ""
   | some n => toString n]

/-- Embedding of `WritingStatsLogger._append_to_json_log`: read the file,
append the entry, write it back; any exception (unparsable file, non-list
top level) is caught and logged, leaving the file unchanged. -/
def appendEntry (fileContent : Option Val) (e : Val) : Option Val :=
  match fileContent with
  | some (Val.vlist xs) => some (Val.vlist (xs ++ [e]))
  | other => other

/-- Embedding of `WritingStatsLogger.log_writing_session`: append the entry
to the JSON log and its row to the CSV log (opened in append mode). -/
def log_writing_session (st : LoggerState) (now : Timestamp) (word_count : Int)
    (page_summary : String) (total_words : Int) (chapter : Int)
    (inspiration_sources : Option (List String)) (writing_duration_minutes : Option Int)
    (metadata : Option Dict) (date : Option Timestamp) : LoggerState :=
  let e := sessionEntry now word_count page_summary total_words chapter
    inspiration_sources writing_duration_minutes metadata date
  { jsonFile := appendEntry st.jsonFile (logEntryVal e)
    csvRows := st.csvRows ++ [csvRow e] }

/-- The timestamp key of a history entry when it is a string (the only key
shape on which the final sort of `get_save_history` can fully succeed). -/
def tsKey (e : HistoryEntry) : Option String :=
  match e.timestamp with
  | some (Val.vstr s) => some s
  | _ => none

/-- Whether an entry carries a string `save_metadata.timestamp`. -/
def isStrTs (e : HistoryEntry) : Bool :=
  (tsKey e).isSome

/-- Descending order of history entries by their string timestamp keys (a
missing key reads as the empty string; the theorems below only apply it to
entries whose keys are present). -/
def tsGe (x y : HistoryEntry) : Prop :=
  (tsKey y).getD ("") ≤ (tsKey x).getD ("")

/-! ### Sample data used by witnesses and counterexamples -/

/-- A log entry for a writing session on the given calendar day. -/
def entryOnDay (iso : String) (day : Int) (wc : Int) : LogEntry :=
  ⟨⟨iso, day⟩, wc, "page", 0, 1, [], none, []⟩

/-- A story dictionary with a single title key. -/
def wStory : Dict := [("title", Val.vstr ("t"))]

/-- A directory with one versioned save, used by the C1 witness. -/
def wDir1 : List SaveFile :=
  [⟨"story_draft_v.json", 1, 0,
    some (Val.vdict [("save_metadata", Val.vdict [("version", Val.vint 2)])])⟩]

/-- Metadata written by the concrete save used in the C10 witness. -/
def wMetaS : Dict :=
  [("timestamp", Val.vstr ("b")), ("version", Val.vint 1),
   ("word_count", Val.vint 0), ("auto_saved", Val.vbool true)]

/-- Story dictionary after the concrete save used in the C10 witness. -/
def wStoryS : Dict := [("title", Val.vstr ("t")), ("save_metadata", Val.vdict wMetaS)]

/-- Metadata written by the concrete backup used in the C10 witness. -/
def wMetaB : Dict :=
  [("timestamp", Val.vstr ("b")), ("word_count", Val.vint 0),
   ("backup_type", Val.vstr ("manual"))]

/-- Story dictionary after the concrete backup used in the C10 witness. -/
def wStoryB : Dict := [("title", Val.vstr ("t")), ("backup_metadata", Val.vdict wMetaB)]

/-- Metadata written by the concrete save used in the C1 witness. -/
def wMeta1 : Dict :=
  [("timestamp", Val.vstr ("T")), ("version", Val.vint 3),
   ("word_count", Val.vint 0), ("auto_saved", Val.vbool true)]

/-- Story dictionary after the concrete save used in the C1 witness. -/
def wStory1 : Dict := [("title", Val.vstr ("t")), ("save_metadata", Val.vdict wMeta1)]

/-! ### Generic helpers -/

/-- Destructuring a successful `Except` bind. -/
theorem exceptBind_ok {α β : Type} {x : Except String α} {f : α → Except String β} {b : β}
    (h : x >>= f = Except.ok b) : ∃ a, x = Except.ok a ∧ f a = Except.ok b := by
  cases x with
  | error e =>
      exfalso
      simp only [Bind.bind, Except.bind] at h
      exact Except.noConfusion h
  | ok a =>
      refine ⟨a, rfl, ?_⟩
      simpa only [Bind.bind, Except.bind] using h

/-- Looking up the key just assigned. -/
theorem dictGet_dictSet_self (k : String) (v : Val) (d : Dict) :
    dictGet k (dictSet k v d) = some v := by
  induction d with
  | nil => simp [dictSet, dictGet]
  | cons kv rest ih =>
      obtain ⟨k2, v2⟩ := kv
      by_cases h : k2 = k
      · subst h
        simp [dictSet, dictGet]
      · simp [dictSet, dictGet, h, ih]

/-- Assignment leaves every other key unchanged. -/
theorem dictGet_dictSet_other (k k2 : String) (hne : k2 ≠ k) (v : Val) (d : Dict) :
    dictGet k2 (dictSet k v d) = dictGet k2 d := by
  induction d with
  | nil => simp [dictSet, dictGet, Ne.symm hne]
  | cons kv rest ih =>
      obtain ⟨k3, v3⟩ := kv
      by_cases h : k3 = k
      · subst h
        simp [dictSet, dictGet, Ne.symm hne]
      · by_cases h2 : k3 = k2
        · subst h2
          simp [dictSet, dictGet, h]
        · simp [dictSet, dictGet, h, h2, ih]

/-! ### C3: current streak -/

/-- C3: [code bug] the claim says `current_streak` counts the consecutive
calendar days, back from today, each containing a logged session; on a
history with sessions on days 998, 999 and 1000 with today = 1000 that
count is 3, but `_calculate_current_streak` returns 2: its loop updates
`current_date` to the day just accepted while also comparing the gap
against the already-incremented `streak`, so the condition
`(current_date - day).days == streak` fails as soon as `streak` reaches 2. -/
theorem current_streak_stops_at_two :
    calculate_current_streak 1000
      [entryOnDay ("2024-01-01T10:00:00") 998 100,
       entryOnDay ("2024-01-02T10:00:00") 999 200,
       entryOnDay ("2024-01-03T10:00:00") 1000 150] = 2 := by
  rfl

/-! ### C7: log appending -/

/-- C7: a call to `log_writing_session` on a well-formed JSON log (a JSON
list, which the logger itself always maintains) appends exactly one entry to
the JSON log and exactly one row to the CSV log, and leaves every previously
logged entry in both files unchanged. -/
theorem log_writing_session_appends
    (st : LoggerState) (xs : List Val) (now : Timestamp) (wc : Int) (ps : String)
    (tw ch : Int) (src : Option (List String)) (dur : Option Int) (md : Option Dict)
    (dt : Option Timestamp)
    (hjson : st.jsonFile = some (Val.vlist xs)) :
    (log_writing_session st now wc ps tw ch src dur md dt).jsonFile
      = some (Val.vlist (xs ++ [logEntryVal (sessionEntry now wc ps tw ch src dur md dt)])) ∧
    (log_writing_session st now wc ps tw ch src dur md dt).csvRows
      = st.csvRows ++ [csvRow (sessionEntry now wc ps tw ch src dur md dt)] ∧
    (xs ++ [logEntryVal (sessionEntry now wc ps tw ch src dur md dt)]).take xs.length = xs ∧
    (st.csvRows ++ [csvRow (sessionEntry now wc ps tw ch src dur md dt)]).take st.csvRows.length
      = st.csvRows := by
  refine ⟨?_, rfl, ?_, ?_⟩
  · simp [log_writing_session, appendEntry, hjson]
  · simp
  · simp

/-- Witness for `log_writing_session_appends` at a concrete state. -/
theorem log_writing_session_appends_witness :
    (log_writing_session ⟨some (Val.vlist []), []⟩ ⟨"2024-01-01T00:00:00", 998⟩ 5 ("s") 0 1
        none none none none).jsonFile
      = some (Val.vlist ([] ++ [logEntryVal (sessionEntry ⟨"2024-01-01T00:00:00", 998⟩ 5 ("s") 0 1
        none none none none)])) :=
  (log_writing_session_appends ⟨some (Val.vlist []), []⟩ [] ⟨"2024-01-01T00:00:00", 998⟩ 5 ("s") 0 1
    none none none none rfl).1

/-! ### C8: aggregate statistics -/

/-- C8: on a non-empty history `get_writing_statistics` reports
`total_words_written` as the sum of the session word counts and
`average_words_per_session` as that sum floor-divided by the number of
sessions; on an empty history every metric is zero and
`most_productive_day` is `None`. -/
theorem writing_statistics_totals (today : Int) (history : List LogEntry) :
    (history = [] → get_writing_statistics today history = ⟨0, 0, 0, 0, 0, 0, none, 0⟩) ∧
    (history ≠ [] →
      (get_writing_statistics today history).total_words_written
          = (history.map (fun e => e.word_count)).sum ∧
      (get_writing_statistics today history).average_words_per_session
          = Int.fdiv ((history.map (fun e => e.word_count)).sum) (Int.ofNat history.length)) := by
  constructor
  · intro h
    subst h
    rfl
  · intro h
    match history with
    | [] => exact absurd rfl h
    | e0 :: rest =>
        refine ⟨rfl, ?_⟩
        show (if 0 < (e0 :: rest).length then
            Int.fdiv (((e0 :: rest).map (fun e => e.word_count)).sum) (Int.ofNat (e0 :: rest).length)
          else 0) = _
        rw [if_pos (by simp)]

/-- Witness for `writing_statistics_totals` on a concrete history. -/
theorem writing_statistics_totals_witness :
    (get_writing_statistics 1000
        [entryOnDay ("2024-01-01T10:00:00") 998 100,
         entryOnDay ("2024-01-02T10:00:00") 999 200]).total_words_written
      = (([entryOnDay ("2024-01-01T10:00:00") 998 100,
           entryOnDay ("2024-01-02T10:00:00") 999 200]).map (fun e => e.word_count)).sum :=
  ((writing_statistics_totals 1000
      [entryOnDay ("2024-01-01T10:00:00") 998 100,
       entryOnDay ("2024-01-02T10:00:00") 999 200]).2 (by simp)).1

/-! ### Destructuring completed saves and backups -/

/-- A completed `save_story_draft` determines its intermediate values and
its result. -/
theorem save_story_draft_ok (tsName tsIso : String) (mt : Nat) (story : Dict)
    (fn : Option String) (dir : List SaveFile) (r : SaveResult)
    (hok : save_story_draft tsName tsIso mt story fn dir = Except.ok r) :
    ∃ (v : Int) (wc : Nat),
      get_next_version dir = Except.ok v ∧
      calculate_word_count story = Except.ok wc ∧
      r = ⟨saveDirName ++ "/" ++ draftFileName tsName fn,
           cleanup_old_versions (writeFile dir
             ⟨draftFileName tsName fn, mt, 0, some (Val.vdict (dictSet ("save_metadata")
               (Val.vdict [("timestamp", Val.vstr tsIso), ("version", Val.vint v),
                           ("word_count", Val.vint (Int.ofNat wc)),
                           ("auto_saved", Val.vbool true)]) story))⟩),
           dictSet ("save_metadata")
             (Val.vdict [("timestamp", Val.vstr tsIso), ("version", Val.vint v),
                         ("word_count", Val.vint (Int.ofNat wc)),
                         ("auto_saved", Val.vbool true)]) story⟩ := by
  unfold save_story_draft at hok
  obtain ⟨v, hv, hok⟩ := exceptBind_ok hok
  obtain ⟨wc, hwc, hok⟩ := exceptBind_ok hok
  refine ⟨v, wc, hv, hwc, ?_⟩
  simpa only [pure, Except.pure, Except.ok.injEq] using hok.symm

/-- A completed `create_backup` determines its intermediate values and its
result. -/
theorem create_backup_ok (tsName tsIso : String) (mt : Nat) (story : Dict)
    (bdir : List SaveFile) (rb : SaveResult)
    (hok : create_backup tsName tsIso mt story bdir = Except.ok rb) :
    ∃ wc : Nat,
      calculate_word_count story = Except.ok wc ∧
      rb = ⟨backupDirName ++ "/" ++ ("backup_" ++ tsName ++ ".json"),
            cleanup_old_backups (writeFile bdir
              ⟨"backup_" ++ tsName ++ ".json", mt, 0, some (Val.vdict (dictSet ("backup_metadata")
                (Val.vdict [("timestamp", Val.vstr tsIso), ("word_count", Val.vint (Int.ofNat wc)),
                            ("backup_type", Val.vstr ("manual"))]) story))⟩),
            dictSet ("backup_metadata")
              (Val.vdict [("timestamp", Val.vstr tsIso), ("word_count", Val.vint (Int.ofNat wc)),
                          ("backup_type", Val.vstr ("manual"))]) story⟩ := by
  unfold create_backup at hok
  obtain ⟨wc, hwc, hok⟩ := exceptBind_ok hok
  refine ⟨wc, hwc, ?_⟩
  simpa only [pure, Except.pure, Except.ok.injEq] using hok.symm

/-! ### C10: in-place metadata assignment -/

/-- C10: completed `save_story_draft` and `create_backup` calls mutate the
story dict of the caller in place, adding or overwriting `save_metadata`
(resp. `backup_metadata`) with the new metadata dict before serialization,
and leave every other key of the story unchanged. -/
theorem save_and_backup_metadata_frame
    (tsName tsIso : String) (mt : Nat) (story : Dict) (fn : Option String)
    (dir bdir : List SaveFile) (r rb : SaveResult)
    (hsave : save_story_draft tsName tsIso mt story fn dir = Except.ok r)
    (hback : create_backup tsName tsIso mt story bdir = Except.ok rb) :
    ((∃ m, dictGet ("save_metadata") r.story = some (Val.vdict m)) ∧
      ∀ k2, k2 ≠ "save_metadata" → dictGet k2 r.story = dictGet k2 story) ∧
    ((∃ m, dictGet ("backup_metadata") rb.story = some (Val.vdict m)) ∧
      ∀ k2, k2 ≠ "backup_metadata" → dictGet k2 rb.story = dictGet k2 story) := by
  obtain ⟨v, wc, hv, hwc, rfl⟩ := save_story_draft_ok _ _ _ _ _ _ _ hsave
  obtain ⟨wcb, hwcb, rfl⟩ := create_backup_ok _ _ _ _ _ _ hback
  exact ⟨⟨⟨_, dictGet_dictSet_self _ _ _⟩, fun k2 hk2 => dictGet_dictSet_other _ _ hk2 _ _⟩,
         ⟨⟨_, dictGet_dictSet_self _ _ _⟩, fun k2 hk2 => dictGet_dictSet_other _ _ hk2 _ _⟩⟩

/-- Witness for `save_and_backup_metadata_frame` at a concrete call. -/
theorem save_and_backup_metadata_frame_witness :
    dictGet ("title") wStoryS = dictGet ("title") wStory :=
  ((save_and_backup_metadata_frame ("a") "b" 7 wStory (some ("f.json")) [] []
      ⟨"saves/f.json", [⟨"f.json", 7, 0, some (Val.vdict wStoryS)⟩], wStoryS⟩
      ⟨"backups/backup_a.json", [⟨"backup_a.json", 7, 0, some (Val.vdict wStoryB)⟩], wStoryB⟩
      (by rfl) (by rfl)).1.2 ("title") (by decide))

/-! ### C1: monotone version numbers -/

/-- Members of a list bound its left fold by `max`. -/
theorem le_foldl_max (l : List Int) :
    ∀ a : Int, a ≤ l.foldl max a ∧ ∀ n ∈ l, n ≤ l.foldl max a := by
  induction l with
  | nil =>
      intro a
      simp
  | cons x xs ih =>
      intro a
      constructor
      · exact le_trans (le_max_left a x) (ih (max a x)).1
      · intro n hn
        rcases List.mem_cons.mp hn with rfl | hn
        · exact le_trans (le_max_right a n) (ih (max a n)).1
        · exact (ih (max a x)).2 n hn

/-- Python `max(l, default=d)` bounds the members of `l`. -/
theorem le_pyMaxInt (l : List Int) (dflt : Int) : ∀ n ∈ l, n ≤ pyMaxInt l dflt := by
  match l with
  | [] =>
      intro n hn
      exact absurd hn (List.not_mem_nil n)
  | x :: xs =>
      intro n hn
      rcases List.mem_cons.mp hn with rfl | hn
      · exact (le_foldl_max xs n).1
      · exact (le_foldl_max xs x).2 n hn

/-- Members of a list that `mapM asInt` maps successfully land in the
result. -/
theorem mem_mapM_asInt (vs : List Val) :
    ∀ ints : List Int, vs.mapM asInt = some ints →
      ∀ w ∈ vs, ∀ n : Int, asInt w = some n → n ∈ ints := by
  induction vs with
  | nil =>
      intro ints h w hw
      exact absurd hw (List.not_mem_nil w)
  | cons v vtl ih =>
      intro ints h w hw n hn
      rw [List.mapM_cons] at h
      cases hv : asInt v with
      | none =>
          rw [hv] at h
          simp at h
      | some m =>
          rw [hv] at h
          cases htl : vtl.mapM asInt with
          | none =>
              rw [htl] at h
              simp at h
          | some ms =>
              rw [htl] at h
              simp at h
              subst h
              rcases List.mem_cons.mp hw with rfl | hw
              · rw [hv] at hn
                injection hn with hnm
                subst hnm
                exact List.mem_cons_self _ _
              · exact List.mem_cons_of_mem _ (ih ms htl w hw n hn)

/-- C1: a completed `save_story_draft` writes into the new draft a
`save_metadata.version` strictly greater than every version number embedded
in the existing globbed save files, and equal to 1 when no file carries a
version. -/
theorem save_story_draft_version_monotone
    (tsName tsIso : String) (mt : Nat) (story : Dict) (fn : Option String)
    (dir : List SaveFile) (r : SaveResult)
    (hok : save_story_draft tsName tsIso mt story fn dir = Except.ok r) :
    ∃ v : Int,
      (∃ m, dictGet ("save_metadata") r.story = some (Val.vdict m) ∧
            dictGet ("version") m = some (Val.vint v)) ∧
      (∀ f ∈ globDrafts dir, ∀ w, extractVersion f = some w →
          ∀ n : Int, asInt w = some n → n < v) ∧
      (((globDrafts dir).filterMap extractVersion) = [] → v = 1) := by
  obtain ⟨v, wc, hv, hwc, rfl⟩ := save_story_draft_ok _ _ _ _ _ _ _ hok
  refine ⟨v, ⟨_, dictGet_dictSet_self _ _ _, by simp [dictGet]⟩, ?_, ?_⟩
  · intro f hf w hw n hn
    unfold get_next_version at hv
    cases hmap : ((globDrafts dir).filterMap extractVersion).mapM asInt with
    | none =>
        rw [hmap] at hv
        simp at hv
    | some ints =>
        rw [hmap] at hv
        simp only [pure, Except.pure, Except.ok.injEq] at hv
        subst hv
        have hwmem : w ∈ (globDrafts dir).filterMap extractVersion :=
          List.mem_filterMap.mpr ⟨f, hf, hw⟩
        have := le_pyMaxInt _ 0 n (mem_mapM_asInt _ _ hmap w hwmem n hn)
        omega
  · intro hempty
    unfold get_next_version at hv
    rw [hempty] at hv
    simp only [List.mapM_nil, Option.pure_def] at hv
    simp only [pure, Except.pure, Except.ok.injEq] at hv
    simp [pyMaxInt] at hv
    omega

/-- Witness for `save_story_draft_version_monotone` at a concrete save. -/
theorem save_story_draft_version_monotone_witness :
    ∃ v : Int,
      (∃ m, dictGet ("save_metadata") wStory1 = some (Val.vdict m) ∧
            dictGet ("version") m = some (Val.vint v)) ∧
      (∀ f ∈ globDrafts wDir1, ∀ w, extractVersion f = some w →
          ∀ n : Int, asInt w = some n → n < v) ∧
      (((globDrafts wDir1).filterMap extractVersion) = [] → v = 1) :=
  save_story_draft_version_monotone ("ts") "T" 5 wStory (some ("story_draft_new00.json")) wDir1
    ⟨"saves/story_draft_new00.json",
     [⟨"story_draft_v.json", 1, 0,
       some (Val.vdict [("save_metadata", Val.vdict [("version", Val.vint 2)])])⟩,
      ⟨"story_draft_new00.json", 5, 0, some (Val.vdict wStory1)⟩],
     wStory1⟩ (by rfl)

/-! ### Retention cleanup: C2 and C4 -/

/-- Writing a file preserves uniqueness of the directory names. -/
theorem writeFile_names_nodup (dir : List SaveFile) (f : SaveFile)
    (h : (dir.map SaveFile.name).Nodup) : ((writeFile dir f).map SaveFile.name).Nodup := by
  unfold writeFile
  split
  · have heq : (dir.map (fun g => if g.name = f.name then f else g)).map SaveFile.name
        = dir.map SaveFile.name := by
      rw [List.map_map]
      apply List.map_congr_left
      intro g _
      by_cases hgf : g.name = f.name
      · simp [hgf]
      · simp [hgf]
    rw [heq]
    exact h
  · next hin =>
      rw [List.map_append]
      rw [List.nodup_append]
      refine ⟨h, List.nodup_singleton _, ?_⟩
      intro a ha hb
      simp only [List.map_cons, List.map_nil, List.mem_singleton] at hb
      subst hb
      rw [List.mem_map] at ha
      obtain ⟨g, hg, hgname⟩ := ha
      exact hin (List.any_eq_true.mpr ⟨g, hg, by simp [hgname]⟩)

/-- A filter vanishing on the first `k` slots and fixing the rest computes
the drop. -/
theorem filter_take_drop_eq (p : SaveFile → Bool) (l : List SaveFile) (k : Nat)
    (h2 : (l.take k).filter p = [])
    (h3 : (l.drop k).filter p = l.drop k) :
    l.filter p = l.drop k := by
  conv_lhs => rw [← List.take_append_drop k l]
  rw [List.filter_append, h2, h3, List.nil_append]

/-- Filtering away, from a list with unique names, everything whose name
occurs in the first `k` slots of its mtime sort leaves a permutation of the
remaining slots. -/
theorem filter_not_doomed_perm (saves : List SaveFile) (k : Nat)
    (hnd : (saves.map SaveFile.name).Nodup) :
    (saves.filter (fun f =>
        ! ((List.insertionSort mtimeLE saves).take k).any (fun g => g.name = f.name))).Perm
      ((List.insertionSort mtimeLE saves).drop k) := by
  have hperm : (List.insertionSort mtimeLE saves).Perm saves :=
    List.perm_insertionSort mtimeLE saves
  have hnds : ((List.insertionSort mtimeLE saves).map SaveFile.name).Nodup :=
    (hperm.map SaveFile.name).nodup_iff.mpr hnd
  have hsplit := List.take_append_drop k (List.insertionSort mtimeLE saves)
  have hdisj : ((List.insertionSort mtimeLE saves).take k).Disjoint
      ((List.insertionSort mtimeLE saves).drop k) := by
    intro a ha hb
    rw [← hsplit, List.map_append] at hnds
    have hdn := List.disjoint_of_nodup_append hnds
    exact hdn (List.mem_map_of_mem SaveFile.name ha) (List.mem_map_of_mem SaveFile.name hb)
  have h1 : (saves.filter (fun f =>
      ! ((List.insertionSort mtimeLE saves).take k).any (fun g => g.name = f.name))).Perm
    ((List.insertionSort mtimeLE saves).filter (fun f =>
      ! ((List.insertionSort mtimeLE saves).take k).any (fun g => g.name = f.name))) :=
    (hperm.filter _).symm
  refine h1.trans ?_
  have h2 : ((List.insertionSort mtimeLE saves).take k).filter (fun f =>
      ! ((List.insertionSort mtimeLE saves).take k).any (fun g => g.name = f.name)) = [] := by
    rw [List.filter_eq_nil_iff]
    intro a ha
    simp only [Bool.not_eq_true', Bool.not_eq_false]
    exact List.any_eq_true.mpr ⟨a, ha, by simp⟩
  have h3 : ((List.insertionSort mtimeLE saves).drop k).filter (fun f =>
      ! ((List.insertionSort mtimeLE saves).take k).any (fun g => g.name = f.name))
      = (List.insertionSort mtimeLE saves).drop k := by
    rw [List.filter_eq_self]
    intro a ha
    simp only [Bool.not_eq_true', List.any_eq_false, decide_eq_true_eq]
    intro g hg hga
    rw [← hsplit, List.map_append] at hnds
    have hdn := List.disjoint_of_nodup_append hnds
    exact hdn (List.mem_map_of_mem SaveFile.name hg)
      (hga ▸ List.mem_map_of_mem SaveFile.name ha)
  rw [filter_take_drop_eq _ _ k h2 h3]

/-- The globbed files surviving a trimming cleanup are a permutation of the
newest `maxKeep` files by modification time. -/
theorem cleanupByMtime_kept (maxKeep : Nat) (pat : String → Bool) (dir : List SaveFile)
    (hnd : (dir.map SaveFile.name).Nodup)
    (h : maxKeep < (dir.filter (fun f => pat f.name)).length) :
    ((cleanupByMtime maxKeep pat dir).filter (fun f => pat f.name)).Perm
      ((List.insertionSort mtimeLE (dir.filter (fun f => pat f.name))).drop
        ((dir.filter (fun f => pat f.name)).length - maxKeep)) := by
  unfold cleanupByMtime
  rw [if_pos h]
  rw [List.filter_filter]
  have hcomm : (dir.filter (fun f =>
      (pat f.name &&
        ! ((List.insertionSort mtimeLE (dir.filter (fun f2 => pat f2.name))).take
            ((dir.filter (fun f2 => pat f2.name)).length - maxKeep)).any
          (fun g => g.name = f.name)))) =
      ((dir.filter (fun f => pat f.name)).filter (fun f =>
        ! ((List.insertionSort mtimeLE (dir.filter (fun f2 => pat f2.name))).take
            ((dir.filter (fun f2 => pat f2.name)).length - maxKeep)).any
          (fun g => g.name = f.name))) := by
    rw [List.filter_filter]
    apply List.filter_congr
    intro a _
    rw [Bool.and_comm]
  rw [hcomm]
  exact filter_not_doomed_perm (dir.filter (fun f => pat f.name)) _
    (hnd.sublist ((List.filter_sublist dir).map SaveFile.name))

/-- After any cleanup at most `maxKeep` globbed files remain. -/
theorem cleanupByMtime_le (maxKeep : Nat) (pat : String → Bool) (dir : List SaveFile)
    (hnd : (dir.map SaveFile.name).Nodup) :
    ((cleanupByMtime maxKeep pat dir).filter (fun f => pat f.name)).length ≤ maxKeep := by
  by_cases h : maxKeep < (dir.filter (fun f => pat f.name)).length
  · rw [(cleanupByMtime_kept maxKeep pat dir hnd h).length_eq]
    rw [List.length_drop, (List.perm_insertionSort mtimeLE _).length_eq]
    omega
  · unfold cleanupByMtime
    rw [if_neg h]
    omega

/-- Every file trimmed by a cleanup is at least as old as every survivor. -/
theorem cleanupByMtime_oldest (maxKeep : Nat) (pat : String → Bool) (dir : List SaveFile)
    (hnd : (dir.map SaveFile.name).Nodup)
    (h : maxKeep < (dir.filter (fun f => pat f.name)).length) :
    ∀ g ∈ (List.insertionSort mtimeLE (dir.filter (fun f => pat f.name))).take
        ((dir.filter (fun f => pat f.name)).length - maxKeep),
      ∀ fk ∈ (cleanupByMtime maxKeep pat dir).filter (fun f => pat f.name),
        g.mtime ≤ fk.mtime := by
  intro g hg fk hfk
  have hkept := (cleanupByMtime_kept maxKeep pat dir hnd h).mem_iff.mp hfk
  have hsorted : List.Sorted mtimeLE
      (List.insertionSort mtimeLE (dir.filter (fun f => pat f.name))) :=
    List.sorted_insertionSort mtimeLE _
  have hsplit := List.take_append_drop
    ((dir.filter (fun f => pat f.name)).length - maxKeep)
    (List.insertionSort mtimeLE (dir.filter (fun f => pat f.name)))
  rw [← hsplit] at hsorted
  exact (List.pairwise_append.mp hsorted).2.2 g hg fk hkept

/-- C2: after a completed `save_story_draft` at most `max_versions` files
matching `story_draft_*.json` remain in the save directory; and whenever the
post-write glob count exceeded the limit, the surviving globbed files are
exactly (a permutation of) the `max_versions` newest ones by modification
time, every trimmed file being at least as old as every survivor. -/
theorem save_story_draft_retention
    (tsName tsIso : String) (mt : Nat) (story : Dict) (fn : Option String)
    (dir : List SaveFile) (r : SaveResult)
    (hnd : (dir.map SaveFile.name).Nodup)
    (hok : save_story_draft tsName tsIso mt story fn dir = Except.ok r) :
    ((r.dir.filter (fun f => storyDraftGlob f.name)).length ≤ max_versions) ∧
    (∀ saves : List SaveFile,
      saves = (writeFile dir ⟨draftFileName tsName fn, mt, 0, some (Val.vdict r.story)⟩).filter
          (fun f => storyDraftGlob f.name) →
      max_versions < saves.length →
      (r.dir.filter (fun f => storyDraftGlob f.name)).Perm
          ((List.insertionSort mtimeLE saves).drop (saves.length - max_versions)) ∧
      (∀ g ∈ (List.insertionSort mtimeLE saves).take (saves.length - max_versions),
        ∀ fk ∈ r.dir.filter (fun f => storyDraftGlob f.name), g.mtime ≤ fk.mtime)) := by
  obtain ⟨v, wc, hv, hwc, rfl⟩ := save_story_draft_ok _ _ _ _ _ _ _ hok
  have hndw := writeFile_names_nodup dir
    ⟨draftFileName tsName fn, mt, 0, some (Val.vdict (dictSet ("save_metadata")
      (Val.vdict [("timestamp", Val.vstr tsIso), ("version", Val.vint v),
                  ("word_count", Val.vint (Int.ofNat wc)),
                  ("auto_saved", Val.vbool true)]) story))⟩ hnd
  refine ⟨cleanupByMtime_le max_versions storyDraftGlob _ hndw, ?_⟩
  intro saves hseq hgt
  subst hseq
  exact ⟨cleanupByMtime_kept max_versions storyDraftGlob _ hndw hgt,
         cleanupByMtime_oldest max_versions storyDraftGlob _ hndw hgt⟩

/-- Witness for `save_story_draft_retention` at a concrete save into an
empty directory. -/
theorem save_story_draft_retention_witness :
    (([⟨"story_draft_0000a.json", 7, 0, some (Val.vdict wStoryS)⟩] : List SaveFile).filter
        (fun f => storyDraftGlob f.name)).length ≤ max_versions :=
  (save_story_draft_retention ("a") "b" 7 wStory (some ("story_draft_0000a.json")) []
    ⟨"saves/story_draft_0000a.json",
     [⟨"story_draft_0000a.json", 7, 0, some (Val.vdict wStoryS)⟩], wStoryS⟩
    (by simp) (by rfl)).1

/-- C4: [spec-modelled cleanup] a completed `create_backup` writes the
timestamped `backup_*.json` into the backup directory, returns its path, and
then trims old backups beyond `max_backups` through the same mtime-based
cleanup mechanism as the draft store (`cleanupByMtime`), instantiated at the
separate retention count. -/
theorem create_backup_writes_and_trims
    (tsName tsIso : String) (mt : Nat) (story : Dict) (bdir : List SaveFile) (rb : SaveResult)
    (hnd : (bdir.map SaveFile.name).Nodup)
    (hok : create_backup tsName tsIso mt story bdir = Except.ok rb) :
    rb.path = backupDirName ++ "/" ++ ("backup_" ++ tsName ++ ".json") ∧
    rb.dir = cleanup_old_backups
        (writeFile bdir ⟨"backup_" ++ tsName ++ ".json", mt, 0, some (Val.vdict rb.story)⟩) ∧
    ((rb.dir.filter (fun f => backupGlob f.name)).length ≤ max_backups) ∧
    (∀ d : List SaveFile, cleanup_old_backups d = cleanupByMtime max_backups backupGlob d) := by
  obtain ⟨wc, hwc, rfl⟩ := create_backup_ok _ _ _ _ _ _ hok
  refine ⟨rfl, rfl, ?_, fun d => rfl⟩
  exact cleanupByMtime_le max_backups backupGlob _ (writeFile_names_nodup bdir _ hnd)

/-- Witness for `create_backup_writes_and_trims` at a concrete backup into
an empty directory. -/
theorem create_backup_writes_and_trims_witness :
    (([⟨"backup_a.json", 7, 0, some (Val.vdict wStoryB)⟩] : List SaveFile).filter
        (fun f => backupGlob f.name)).length ≤ max_backups :=
  (create_backup_writes_and_trims ("a") "b" 7 wStory []
    ⟨"backups/backup_a.json", [⟨"backup_a.json", 7, 0, some (Val.vdict wStoryB)⟩], wStoryB⟩
    (by simp) (by rfl)).2.2.1

/-! ### C5 and C9: save history -/

/-- A present string key determines the entry timestamp. -/
theorem tsKey_eq_some (e : HistoryEntry) (s : String) (h : tsKey e = some s) :
    e.timestamp = some (Val.vstr s) := by
  unfold tsKey at h
  cases hts : e.timestamp with
  | none =>
      rw [hts] at h
      exact absurd h (by simp)
  | some v =>
      rw [hts] at h
      cases v <;> simp_all

/-- Inserting an entry with a string key into a descending-sorted list of
entries with string keys succeeds and keeps the list a sorted permutation. -/
theorem insertDesc_ok (e : HistoryEntry) (l : List HistoryEntry)
    (he : isStrTs e = true) (hl : ∀ f ∈ l, isStrTs f = true)
    (hs : l.Sorted tsGe) :
    ∃ l2, insertDesc e l = Except.ok l2 ∧ l2.Perm (e :: l) ∧ l2.Sorted tsGe := by
  induction l with
  | nil => exact ⟨[e], rfl, List.Perm.refl _, List.sorted_singleton e⟩
  | cons f fs ih =>
      obtain ⟨se, hseK⟩ := Option.isSome_iff_exists.mp he
      obtain ⟨sf, hsfK⟩ := Option.isSome_iff_exists.mp (hl f (by simp))
      have hse := tsKey_eq_some e se hseK
      have hsf := tsKey_eq_some f sf hsfK
      rw [List.sorted_cons] at hs
      obtain ⟨hfge, hfs⟩ := hs
      by_cases hlt : sf < se
      · refine ⟨e :: f :: fs, ?_, List.Perm.refl _, ?_⟩
        · simp [insertDesc, keyLt, hse, hsf, pyLt, hlt, pure, Except.pure, Bind.bind, Except.bind]
        · rw [List.sorted_cons]
          refine ⟨?_, List.sorted_cons.mpr ⟨hfge, hfs⟩⟩
          intro b hb
          rcases List.mem_cons.mp hb with rfl | hb
          · unfold tsGe
            rw [hseK, hsfK]
            exact le_of_lt hlt
          · have hfb := hfge b hb
            unfold tsGe at hfb ⊢
            rw [hseK]
            rw [hsfK] at hfb
            exact le_trans hfb (le_of_lt hlt)
      · obtain ⟨l2, hl2, hperm, hsort⟩ := ih (fun g hg => hl g (by simp [hg])) hfs
        refine ⟨f :: l2, ?_, ?_, ?_⟩
        · simp [insertDesc, keyLt, hse, hsf, pyLt, hlt, hl2, pure, Except.pure, Bind.bind, Except.bind]
        · exact (hperm.cons f).trans (List.Perm.swap e f fs)
        · rw [List.sorted_cons]
          refine ⟨?_, hsort⟩
          intro b hb
          rcases List.mem_cons.mp (hperm.mem_iff.mp hb) with rfl | hb
          · unfold tsGe
            rw [hseK, hsfK]
            exact not_lt.mp hlt
          · exact hfge b hb

/-- Sorting entries that all carry string keys succeeds with a sorted
permutation of the input. -/
theorem sortHistoryDesc_ok (l : List HistoryEntry) (hl : ∀ f ∈ l, isStrTs f = true) :
    ∃ l2, sortHistoryDesc l = Except.ok l2 ∧ l2.Perm l ∧ l2.Sorted tsGe := by
  suffices h : ∀ (rest acc : List HistoryEntry), (∀ f ∈ rest, isStrTs f = true) →
      (∀ f ∈ acc, isStrTs f = true) → acc.Sorted tsGe →
      ∃ l2, List.foldlM (fun a e => insertDesc e a) acc rest = Except.ok l2 ∧
        l2.Perm (acc ++ rest) ∧ l2.Sorted tsGe by
    obtain ⟨l2, h1, h2, h3⟩ := h l [] hl (by simp) List.sorted_nil
    exact ⟨l2, h1, by simpa using h2, h3⟩
  intro rest
  induction rest with
  | nil =>
      intro acc _ _ h3
      exact ⟨acc, rfl, by simp, h3⟩
  | cons e es ih =>
      intro acc h1 h2 h3
      obtain ⟨m, hm, hmp, hms⟩ := insertDesc_ok e acc (h1 e (by simp)) h2 h3
      have hmall : ∀ f ∈ m, isStrTs f = true := by
        intro f hf
        rcases List.mem_cons.mp (hmp.mem_iff.mp hf) with rfl | hf
        · exact h1 f (by simp)
        · exact h2 f hf
      obtain ⟨l2, hl2, hl2p, hl2s⟩ := ih m (fun f hf => h1 f (by simp [hf])) hmall hms
      refine ⟨l2, ?_, ?_, hl2s⟩
      · rw [List.foldlM_cons, hm]
        simpa using hl2
      · refine hl2p.trans ?_
        refine (hmp.append_right es).trans ?_
        rw [List.cons_append]
        exact List.perm_middle.symm

/-- C5 (amended): whenever every parsed entry of the globbed save files
carries a string `save_metadata.timestamp`, `get_save_history` returns one
entry per readable file — a permutation of the entries built from the
parsed files — sorted by that timestamp in descending order (newest
first). -/
theorem get_save_history_sorted_desc (dir : List SaveFile)
    (hstr : ∀ e ∈ (globDrafts dir).filterMap entryOfFile, isStrTs e = true) :
    ∃ l, get_save_history dir = Except.ok l ∧
      l.Perm ((globDrafts dir).filterMap entryOfFile) ∧ l.Sorted tsGe :=
  sortHistoryDesc_ok _ hstr

/-- Witness for `get_save_history_sorted_desc` on a directory with one
versioned save. -/
theorem get_save_history_sorted_desc_witness :
    ∃ l, get_save_history
        [⟨"story_draft_w5.json", 3, 7,
          some (Val.vdict [("save_metadata",
            Val.vdict [("timestamp", Val.vstr ("2024-01-02T00:00:00")), ("version", Val.vint 4),
                       ("word_count", Val.vint 9)])])⟩]
        = Except.ok l ∧
      l.Perm ((globDrafts [⟨"story_draft_w5.json", 3, 7,
          some (Val.vdict [("save_metadata",
            Val.vdict [("timestamp", Val.vstr ("2024-01-02T00:00:00")), ("version", Val.vint 4),
                       ("word_count", Val.vint 9)])])⟩]).filterMap entryOfFile) ∧
      l.Sorted tsGe :=
  get_save_history_sorted_desc _ (by decide)

/-- C5 counterexample: two readable save files whose JSON lacks
`save_metadata` make the final sort of `get_save_history` compare two `None`
timestamp keys, so the call raises `TypeError` instead of returning one
entry per readable file. -/
theorem get_save_history_raises_on_plain_files :
    get_save_history
      [⟨"story_draft_p1.json", 1, 5, some (Val.vdict [("title", Val.vstr ("a"))])⟩,
       ⟨"story_draft_p2.json", 2, 6, some (Val.vdict [("title", Val.vstr ("b"))])⟩]
      = Except.error ("TypeError: NoneType is unorderable") := rfl

/-- A successful insertion never returns the empty list. -/
theorem insertDesc_ok_ne_nil (e : HistoryEntry) :
    ∀ (l l2 : List HistoryEntry), insertDesc e l = Except.ok l2 → l2 ≠ [] := by
  intro l
  induction l with
  | nil =>
      intro l2 h
      simp only [insertDesc, pure, Except.pure, Except.ok.injEq] at h
      subst h
      simp
  | cons f fs ih =>
      intro l2 h
      simp only [insertDesc] at h
      obtain ⟨b, _, h2⟩ := exceptBind_ok h
      cases b with
      | true =>
          simp only [if_pos, pure, Except.pure, Except.ok.injEq] at h2
          subst h2
          simp
      | false =>
          simp only [Bool.false_eq_true, if_false] at h2
          obtain ⟨r, hr, h3⟩ := exceptBind_ok h2
          simp only [pure, Except.pure, Except.ok.injEq] at h3
          subst h3
          simp

/-- Inserting an entry whose timestamp is missing into a non-empty
accumulator compares the `None` key at once and raises. -/
theorem insertDesc_none_error (e f : HistoryEntry) (fs : List HistoryEntry)
    (he : e.timestamp = none) :
    insertDesc e (f :: fs) = Except.error ("TypeError: NoneType is unorderable") := by
  simp only [insertDesc, he]
  cases f.timestamp with
  | none => rfl
  | some v => rfl

/-- Inserting anything into an accumulator headed by a missing timestamp
compares the `None` key at once and raises. -/
theorem insertDesc_into_none_error (e f : HistoryEntry) (fs : List HistoryEntry)
    (hf : f.timestamp = none) :
    insertDesc e (f :: fs) = Except.error ("TypeError: NoneType is unorderable") := by
  simp only [insertDesc, hf]
  rfl

/-- Folding the insertions over entries among which some timestamp is
missing raises as soon as the accumulator is non-empty. -/
theorem foldlM_insert_none_error :
    ∀ (l acc : List HistoryEntry), (∃ e ∈ l, e.timestamp = none) → acc ≠ [] →
      ∃ msg, List.foldlM (fun a e => insertDesc e a) acc l = Except.error msg := by
  intro l
  induction l with
  | nil =>
      intro acc hnone _
      obtain ⟨e, he, _⟩ := hnone
      exact absurd he (List.not_mem_nil e)
  | cons e es ih =>
      intro acc hnone hacc
      match acc, hacc with
      | f :: fs, _ =>
          by_cases he : e.timestamp = none
          · refine ⟨"TypeError: NoneType is unorderable", ?_⟩
            rw [List.foldlM_cons, insertDesc_none_error e f fs he]
            rfl
          · obtain ⟨w, hw, hwts⟩ := hnone
            have hwes : w ∈ es := by
              rcases List.mem_cons.mp hw with rfl | h
              · exact absurd hwts he
              · exact h
            cases hins : insertDesc e (f :: fs) with
            | error msg =>
                refine ⟨msg, ?_⟩
                rw [List.foldlM_cons, hins]
                rfl
            | ok m =>
                have hm : m ≠ [] := insertDesc_ok_ne_nil e (f :: fs) m hins
                match m, hm with
                | g :: gs, _ =>
                    obtain ⟨msg, hmsg⟩ := ih (g :: gs) ⟨w, hwes, hwts⟩ (by simp)
                    refine ⟨msg, ?_⟩
                    rw [List.foldlM_cons, hins]
                    simpa using hmsg

/-- With at least two built entries among which some timestamp is missing,
the final sort of `get_save_history` compares a `None` key and raises. -/
theorem sortHistoryDesc_error_of_none (l : List HistoryEntry)
    (hlen : 2 ≤ l.length) (hnone : ∃ e ∈ l, e.timestamp = none) :
    ∃ msg, sortHistoryDesc l = Except.error msg := by
  match l, hlen with
  | e1 :: e2 :: es, _ =>
      have hstep : sortHistoryDesc (e1 :: e2 :: es)
          = List.foldlM (fun a e => insertDesc e a) [e1] (e2 :: es) := by
        rfl
      rw [hstep]
      obtain ⟨w, hw, hwts⟩ := hnone
      rcases List.mem_cons.mp hw with rfl | hw2
      · refine ⟨"TypeError: NoneType is unorderable", ?_⟩
        rw [List.foldlM_cons, insertDesc_into_none_error e2 w [] hwts]
        rfl
      · exact foldlM_insert_none_error (e2 :: es) [e1] ⟨w, hw2, hwts⟩ (by simp)

/-- C9 (amended): `get_save_history` silently skips unreadable or invalid
files and keeps entries only for files whose JSON parses, an entry without
`save_metadata` getting timestamp `None`, version `None` and word count 0;
it returns the entry list whenever at most one entry was built or every
entry carries a string timestamp; and whenever two or more entries were
built and some entry lacks a timestamp, the final sort compares the `None`
key and raises `TypeError` instead of returning (entries whose timestamps
are all present and mutually orderable, for example all numbers, still sort
without raising, as in CPython). -/
theorem get_save_history_skips_corrupt (dir : List SaveFile) :
    ((((globDrafts dir).filterMap entryOfFile).length ≤ 1 ∨
        (∀ e ∈ (globDrafts dir).filterMap entryOfFile, isStrTs e = true)) →
      ∃ l, get_save_history dir = Except.ok l ∧
        l.Perm ((globDrafts dir).filterMap entryOfFile)) ∧
    (2 ≤ ((globDrafts dir).filterMap entryOfFile).length →
      (∃ e ∈ (globDrafts dir).filterMap entryOfFile, e.timestamp = none) →
      ∃ msg, get_save_history dir = Except.error msg) ∧
    (∀ f ∈ dir, f.content = none → entryOfFile f = none) ∧
    (∀ f ∈ dir, ∀ d : Dict, f.content = some (Val.vdict d) →
        dictGet ("save_metadata") d = none →
        entryOfFile f
          = some ⟨f.name, saveDirName ++ "/" ++ f.name, none, none, Val.vint 0, f.size⟩) := by
  refine ⟨?_, ?_, ?_, ?_⟩
  · intro hcond
    rcases hcond with hlen | hstr
    · cases hE : (globDrafts dir).filterMap entryOfFile with
      | nil =>
          refine ⟨[], ?_, by simp⟩
          show sortHistoryDesc ((globDrafts dir).filterMap entryOfFile) = Except.ok []
          rw [hE]
          rfl
      | cons e tl =>
          cases tl with
          | nil =>
              refine ⟨[e], ?_, by simp⟩
              show sortHistoryDesc ((globDrafts dir).filterMap entryOfFile) = Except.ok [e]
              rw [hE]
              rfl
          | cons e2 tl2 =>
              rw [hE] at hlen
              simp at hlen
    · obtain ⟨l, h1, h2, _⟩ := sortHistoryDesc_ok _ hstr
      exact ⟨l, h1, h2⟩
  · intro hlen hnone
    exact sortHistoryDesc_error_of_none _ hlen hnone
  · intro f _ hc
    simp [entryOfFile, hc]
  · intro f _ d hc hmeta
    simp [entryOfFile, hc, hmeta]

/-- Witness for `get_save_history_skips_corrupt`: one corrupt file next to
one readable file without metadata. -/
theorem get_save_history_skips_corrupt_witness :
    ∃ l, get_save_history
          [⟨"story_draft_w9.json", 1, 4, none⟩,
           ⟨"story_draft_w9b.json", 2, 8, some (Val.vdict [("title", Val.vstr ("x"))])⟩]
        = Except.ok l ∧
      l.Perm ((globDrafts
          [⟨"story_draft_w9.json", 1, 4, none⟩,
           ⟨"story_draft_w9b.json", 2, 8,
            some (Val.vdict [("title", Val.vstr ("x"))])⟩]).filterMap entryOfFile) :=
  (get_save_history_skips_corrupt _).1 (Or.inl (by decide))

/-- C9 counterexample: with one unreadable file, one parsed file without
`save_metadata` and one fully versioned file in the directory, the entry of
the metadata-less file carries timestamp `None`, and the final sort compares
it against the string timestamp of the versioned one, raising `TypeError`
out of `get_save_history`. -/
theorem get_save_history_raises_on_none_timestamp :
    get_save_history
      [⟨"story_draft_x1.json", 1, 5, none⟩,
       ⟨"story_draft_x2.json", 2, 6, some (Val.vdict [("title", Val.vstr ("a"))])⟩,
       ⟨"story_draft_x3.json", 3, 7,
        some (Val.vdict [("save_metadata",
          Val.vdict [("timestamp", Val.vstr ("2024-01-02T00:00:00"))])])⟩]
      = Except.error ("TypeError: NoneType is unorderable") := rfl

/-! ### C6: longest streak -/

/-- Membership in `insertUniq`. -/
theorem mem_insertUniq {α : Type} [LinearOrder α] (d x : α) (l : List α) :
    x ∈ insertUniq d l ↔ x = d ∨ x ∈ l := by
  induction l with
  | nil => simp [insertUniq]
  | cons e es ih =>
      by_cases h1 : d < e
      · simp [insertUniq, h1]
      · by_cases h2 : d = e
        · subst h2
          simp [insertUniq, h1]
        · simp only [insertUniq, if_neg h1, if_neg h2, List.mem_cons, ih]
          tauto

/-- `insertUniq` preserves strictly ascending sortedness. -/
theorem sorted_insertUniq {α : Type} [LinearOrder α] (d : α) (l : List α)
    (hs : l.Sorted (· < ·)) : (insertUniq d l).Sorted (· < ·) := by
  induction l with
  | nil => simp [insertUniq]
  | cons e es ih =>
      rw [List.sorted_cons] at hs
      obtain ⟨he, hes⟩ := hs
      by_cases h1 : d < e
      · have heq : insertUniq d (e :: es) = d :: e :: es := by simp [insertUniq, h1]
        rw [heq, List.sorted_cons]
        refine ⟨?_, List.sorted_cons.mpr ⟨he, hes⟩⟩
        intro b hb
        rcases List.mem_cons.mp hb with rfl | hb
        · exact h1
        · exact lt_trans h1 (he b hb)
      · by_cases h2 : d = e
        · have heq : insertUniq d (e :: es) = e :: es := by simp [insertUniq, h1, h2]
          rw [heq]
          exact List.sorted_cons.mpr ⟨he, hes⟩
        · have heq : insertUniq d (e :: es) = e :: insertUniq d es := by
            simp [insertUniq, h1, h2]
          rw [heq, List.sorted_cons]
          refine ⟨?_, ih hes⟩
          intro b hb
          rcases (mem_insertUniq d b es).mp hb with rfl | hb
          · exact lt_of_le_of_ne (not_lt.mp h1) (Ne.symm h2)
          · exact he b hb

/-- The fold computing `sorted(set(l))` is strictly sorted and collects
exactly the members of `l`. -/
theorem pySortedSet_spec {α : Type} [LinearOrder α] (l : List α) :
    (pySortedSet l).Sorted (· < ·) ∧ ∀ x, x ∈ pySortedSet l ↔ x ∈ l := by
  suffices h : ∀ (l2 acc : List α), acc.Sorted (· < ·) →
      (List.foldl (fun a d => insertUniq d a) acc l2).Sorted (· < ·) ∧
      (∀ x, x ∈ List.foldl (fun a d => insertUniq d a) acc l2 ↔ x ∈ acc ∨ x ∈ l2) by
    obtain ⟨h1, h2⟩ := h l [] List.sorted_nil
    unfold pySortedSet
    refine ⟨h1, fun x => ?_⟩
    rw [h2 x]
    simp
  intro l2
  induction l2 with
  | nil =>
      intro acc hs
      refine ⟨hs, fun x => ?_⟩
      simp
  | cons d ds ih =>
      intro acc hs
      obtain ⟨h1, h2⟩ := ih (insertUniq d acc) (sorted_insertUniq d acc hs)
      refine ⟨h1, fun x => ?_⟩
      rw [List.foldl_cons, h2 x, mem_insertUniq]
      simp only [List.mem_cons]
      tauto

/-- Walking the loop of `_calculate_longest_streak` over any suffix, the
final value is achieved by some run of consecutive days inside `S`. -/
theorem longestLoop_achieved (S : List Int) :
    ∀ (rest : List Int) (prev : Int) (cur longest : Nat),
      (∀ x ∈ rest, x ∈ S) →
      (∀ j : Nat, j < cur → prev - (j : Int) ∈ S) →
      (∃ d : Int, ∀ j : Nat, j < longest → d + (j : Int) ∈ S) →
      ∃ d : Int, ∀ j : Nat, j < longestLoop prev cur longest rest → d + (j : Int) ∈ S := by
  intro rest
  induction rest with
  | nil =>
      intro prev cur longest _ _ hlong
      simpa only [longestLoop] using hlong
  | cons dd ds ih =>
      intro prev cur longest hsub hcur hlong
      by_cases hstep : dd - prev = 1
      · have hcur2 : ∀ j : Nat, j < cur + 1 → dd - (j : Int) ∈ S := by
          intro j hj
          cases j with
          | zero => simpa using hsub dd (by simp)
          | succ j2 =>
              have hmem := hcur j2 (by omega)
              have heq : dd - ((j2 + 1 : Nat) : Int) = prev - (j2 : Int) := by omega
              rw [heq]
              exact hmem
        have hlong2 : ∃ d : Int, ∀ j : Nat, j < max longest (cur + 1) → d + (j : Int) ∈ S := by
          rcases Nat.le_total (cur + 1) longest with hle | hle
          · rw [Nat.max_eq_left hle]
            exact hlong
          · rw [Nat.max_eq_right hle]
            refine ⟨dd - (cur : Int), fun j hj => ?_⟩
            have hmem := hcur2 (cur - j) (by omega)
            have heq : dd - ((cur - j : Nat) : Int) = dd - (cur : Int) + (j : Int) := by omega
            rw [heq] at hmem
            exact hmem
        have hres : longestLoop prev cur longest (dd :: ds)
            = longestLoop dd (cur + 1) (max longest (cur + 1)) ds := by
          simp only [longestLoop]
          rw [if_pos hstep]
        rw [hres]
        exact ih dd (cur + 1) (max longest (cur + 1)) (fun x hx => hsub x (by simp [hx]))
          hcur2 hlong2
      · have hres : longestLoop prev cur longest (dd :: ds) = longestLoop dd 1 longest ds := by
          simp only [longestLoop]
          rw [if_neg hstep]
        rw [hres]
        refine ih dd 1 longest (fun x hx => hsub x (by simp [hx])) ?_ hlong
        intro j hj
        have hj0 : j = 0 := by omega
        subst hj0
        simpa using hsub dd (by simp)

/-- Walking the loop over any suffix under the maximality invariants, every
run of consecutive days inside `S` is bounded by the final value. -/
theorem longestLoop_le (S : List Int) :
    ∀ (rest : List Int) (prev : Int) (cur longest : Nat),
      List.Sorted (· < ·) (prev :: rest) →
      (∀ e ∈ S, e ≤ prev ∨ e ∈ rest) →
      (∀ k : Nat, (∀ j : Nat, j < k → prev - (j : Int) ∈ S) → k ≤ cur) →
      (∀ (d : Int) (k : Nat), 0 < k → (∀ j : Nat, j < k → d + (j : Int) ∈ S) →
          d + (k : Int) - 1 ≤ prev → k ≤ longest) →
      cur ≤ longest → 1 ≤ longest →
      ∀ (d : Int) (k : Nat), (∀ j : Nat, j < k → d + (j : Int) ∈ S) →
        k ≤ longestLoop prev cur longest rest := by
  intro rest
  induction rest with
  | nil =>
      intro prev cur longest _ hsplit _ hlong _ _ d k hrun
      simp only [longestLoop]
      cases Nat.eq_zero_or_pos k with
      | inl h => omega
      | inr hk =>
          refine hlong d k hk hrun ?_
          have hmem := hrun (k - 1) (by omega)
          have heq : d + ((k - 1 : Nat) : Int) = d + (k : Int) - 1 := by omega
          rw [heq] at hmem
          rcases hsplit _ hmem with h | h
          · exact h
          · exact absurd h (List.not_mem_nil _)
  | cons dd ds ih =>
      intro prev cur longest hsort hsplit hcur hlong hcl h1l d k hrun
      have hsort2 := hsort
      rw [List.sorted_cons] at hsort2
      obtain ⟨hprevlt, hsorttl⟩ := hsort2
      have hprevdd : prev < dd := hprevlt dd (by simp)
      have hddlt : ∀ b ∈ ds, dd < b := (List.sorted_cons.mp hsorttl).1
      have hgap : ∀ e ∈ S, prev < e → e < dd → False := by
        intro e he hlt1 hlt2
        rcases hsplit e he with h | h
        · omega
        · rcases List.mem_cons.mp h with rfl | h
          · omega
          · exact absurd (hddlt e h) (by omega)
      have hsplit2 : ∀ e ∈ S, e ≤ dd ∨ e ∈ ds := by
        intro e he
        rcases hsplit e he with h | h
        · exact Or.inl (by omega)
        · rcases List.mem_cons.mp h with rfl | h
          · exact Or.inl le_rfl
          · exact Or.inr h
      by_cases hstep : dd - prev = 1
      · have hcur2 : ∀ k2 : Nat, (∀ j : Nat, j < k2 → dd - (j : Int) ∈ S) → k2 ≤ cur + 1 := by
          intro k2 hk2
          cases Nat.eq_zero_or_pos k2 with
          | inl h => omega
          | inr hpos =>
              have hk2m : ∀ j : Nat, j < k2 - 1 → prev - (j : Int) ∈ S := by
                intro j hj
                have hmem := hk2 (j + 1) (by omega)
                have heq : dd - ((j + 1 : Nat) : Int) = prev - (j : Int) := by omega
                rw [heq] at hmem
                exact hmem
              have := hcur (k2 - 1) hk2m
              omega
        have hlong2 : ∀ (d2 : Int) (k2 : Nat), 0 < k2 →
            (∀ j : Nat, j < k2 → d2 + (j : Int) ∈ S) → d2 + (k2 : Int) - 1 ≤ dd →
            k2 ≤ max longest (cur + 1) := by
          intro d2 k2 hpos hrun2 hend
          have hmem : d2 + (k2 : Int) - 1 ∈ S := by
            have hmem2 := hrun2 (k2 - 1) (by omega)
            have heq : d2 + ((k2 - 1 : Nat) : Int) = d2 + (k2 : Int) - 1 := by omega
            rw [heq] at hmem2
            exact hmem2
          by_cases hcase : d2 + (k2 : Int) - 1 ≤ prev
          · exact le_trans (hlong d2 k2 hpos hrun2 hcase) (Nat.le_max_left _ _)
          · have hend_eq : d2 + (k2 : Int) - 1 = dd := by
              by_contra hne
              exact hgap _ hmem (by omega) (by omega)
            have hk2run : ∀ j : Nat, j < k2 → dd - (j : Int) ∈ S := by
              intro j hj
              have hmem2 := hrun2 (k2 - 1 - j) (by omega)
              have heq : d2 + ((k2 - 1 - j : Nat) : Int) = dd - (j : Int) := by omega
              rw [heq] at hmem2
              exact hmem2
            exact le_trans (hcur2 k2 hk2run) (Nat.le_max_right _ _)
        have hres : longestLoop prev cur longest (dd :: ds)
            = longestLoop dd (cur + 1) (max longest (cur + 1)) ds := by
          simp only [longestLoop]
          rw [if_pos hstep]
        rw [hres]
        exact ih dd (cur + 1) (max longest (cur + 1)) hsorttl hsplit2 hcur2 hlong2
          (Nat.le_max_right _ _) (le_trans h1l (Nat.le_max_left _ _)) d k hrun
      · have hnom1 : ¬ (dd - 1 ∈ S) := by
          intro hmem
          rcases hsplit _ hmem with h | h
          · omega
          · rcases List.mem_cons.mp h with heq | h
            · omega
            · exact absurd (hddlt _ h) (by omega)
        have hcur2 : ∀ k2 : Nat, (∀ j : Nat, j < k2 → dd - (j : Int) ∈ S) → k2 ≤ 1 := by
          intro k2 hk2
          by_contra hgt
          push_neg at hgt
          have hmem := hk2 1 (by omega)
          have heq : dd - ((1 : Nat) : Int) = dd - 1 := by omega
          rw [heq] at hmem
          exact hnom1 hmem
        have hlong2 : ∀ (d2 : Int) (k2 : Nat), 0 < k2 →
            (∀ j : Nat, j < k2 → d2 + (j : Int) ∈ S) → d2 + (k2 : Int) - 1 ≤ dd →
            k2 ≤ longest := by
          intro d2 k2 hpos hrun2 hend
          have hmem : d2 + (k2 : Int) - 1 ∈ S := by
            have hmem2 := hrun2 (k2 - 1) (by omega)
            have heq : d2 + ((k2 - 1 : Nat) : Int) = d2 + (k2 : Int) - 1 := by omega
            rw [heq] at hmem2
            exact hmem2
          by_cases hcase : d2 + (k2 : Int) - 1 ≤ prev
          · exact hlong d2 k2 hpos hrun2 hcase
          · have hend_eq : d2 + (k2 : Int) - 1 = dd := by
              by_contra hne
              exact hgap _ hmem (by omega) (by omega)
            have hk2le : k2 ≤ 1 := by
              by_contra hgt
              push_neg at hgt
              have hmem2 := hrun2 (k2 - 2) (by omega)
              have heq : d2 + ((k2 - 2 : Nat) : Int) = dd - 1 := by omega
              rw [heq] at hmem2
              exact absurd hmem2 hnom1
            omega
        have hres : longestLoop prev cur longest (dd :: ds) = longestLoop dd 1 longest ds := by
          simp only [longestLoop]
          rw [if_neg hstep]
        rw [hres]
        exact ih dd 1 longest hsorttl hsplit2 hcur2 hlong2 h1l h1l d k hrun

/-- C6: `calculate_longest_streak` returns the length of a longest run of
consecutive calendar days each containing at least one logged session: the
returned length is achieved by some run inside the recorded days, every
such run is bounded by it, it is at least 1 on any non-empty history (so a
history with no two adjacent days yields 1), and an empty history yields
0. -/
theorem longest_streak_correct (history : List LogEntry) :
    (history = [] → calculate_longest_streak history = 0) ∧
    (history ≠ [] → ∃ d : Int, ∀ j : Nat, j < calculate_longest_streak history →
        d + (j : Int) ∈ history.map (fun e => e.date.day)) ∧
    (∀ (d : Int) (k : Nat),
        (∀ j : Nat, j < k → d + (j : Int) ∈ history.map (fun e => e.date.day)) →
        k ≤ calculate_longest_streak history) ∧
    (history ≠ [] → 1 ≤ calculate_longest_streak history) := by
  obtain ⟨hsorted, hmem⟩ := pySortedSet_spec (history.map (fun e => e.date.day))
  cases history with
  | nil =>
      refine ⟨fun _ => rfl, fun h => absurd rfl h, ?_, fun h => absurd rfl h⟩
      intro d k hrun
      cases Nat.eq_zero_or_pos k with
      | inl h => omega
      | inr hk =>
          have := hrun 0 hk
          simp at this
  | cons e0 rest =>
      have hdmem : e0.date.day ∈ pySortedSet ((e0 :: rest).map (fun e => e.date.day)) := by
        rw [hmem]
        simp
      cases hS : pySortedSet ((e0 :: rest).map (fun e => e.date.day)) with
      | nil =>
          rw [hS] at hdmem
          exact absurd hdmem (List.not_mem_nil _)
      | cons d0 ds =>
          rw [hS] at hsorted
          have hmem2 : ∀ x, x ∈ d0 :: ds ↔ x ∈ (e0 :: rest).map (fun e => e.date.day) := by
            intro x
            rw [← hS]
            exact hmem x
          have hcalc : calculate_longest_streak (e0 :: rest) = longestLoop d0 1 1 ds := by
            simp only [calculate_longest_streak, hS]
          have hd0S : d0 ∈ (e0 :: rest).map (fun e => e.date.day) :=
            (hmem2 d0).mp (by simp)
          have hd0lt : ∀ b ∈ ds, d0 < b := (List.sorted_cons.mp hsorted).1
          have hsplit : ∀ x ∈ (e0 :: rest).map (fun e => e.date.day), x ≤ d0 ∨ x ∈ ds := by
            intro x hx
            rcases List.mem_cons.mp ((hmem2 x).mpr hx) with rfl | hx2
            · exact Or.inl le_rfl
            · exact Or.inr hx2
          have hnom1 : ¬ (d0 - 1 ∈ (e0 :: rest).map (fun e => e.date.day)) := by
            intro hmem3
            rcases List.mem_cons.mp ((hmem2 _).mpr hmem3) with heq | hx2
            · omega
            · exact absurd (hd0lt _ hx2) (by omega)
          have hcur : ∀ k : Nat,
              (∀ j : Nat, j < k → d0 - (j : Int) ∈ (e0 :: rest).map (fun e => e.date.day)) →
              k ≤ 1 := by
            intro k hk
            by_contra hgt
            push_neg at hgt
            have hmem3 := hk 1 (by omega)
            have heq : d0 - ((1 : Nat) : Int) = d0 - 1 := by omega
            rw [heq] at hmem3
            exact hnom1 hmem3
          have hlong : ∀ (d : Int) (k : Nat), 0 < k →
              (∀ j : Nat, j < k → d + (j : Int) ∈ (e0 :: rest).map (fun e => e.date.day)) →
              d + (k : Int) - 1 ≤ d0 → k ≤ 1 := by
            intro d k hpos hrun hend
            have hmem3 : d + (k : Int) - 1 ∈ (e0 :: rest).map (fun e => e.date.day) := by
              have hmem4 := hrun (k - 1) (by omega)
              have heq : d + ((k - 1 : Nat) : Int) = d + (k : Int) - 1 := by omega
              rw [heq] at hmem4
              exact hmem4
            have hend_eq : d + (k : Int) - 1 = d0 := by
              rcases List.mem_cons.mp ((hmem2 _).mpr hmem3) with heq | hx2
              · exact heq
              · exact absurd (hd0lt _ hx2) (by omega)
            by_contra hgt
            push_neg at hgt
            have hmem4 := hrun (k - 2) (by omega)
            have heq : d + ((k - 2 : Nat) : Int) = d0 - 1 := by omega
            rw [heq] at hmem4
            exact hnom1 hmem4
          refine ⟨fun h => absurd h (by simp), ?_, ?_, ?_⟩
          · intro _
            rw [hcalc]
            refine longestLoop_achieved _ ds d0 1 1 ?_ ?_ ?_
            · intro x hx
              exact (hmem2 x).mp (by simp [hx])
            · intro j hj
              have hj0 : j = 0 := by omega
              subst hj0
              simpa using hd0S
            · refine ⟨d0, fun j hj => ?_⟩
              have hj0 : j = 0 := by omega
              subst hj0
              simpa using hd0S
          · intro d k hrun
            rw [hcalc]
            exact longestLoop_le _ ds d0 1 1 hsorted hsplit hcur hlong le_rfl le_rfl d k hrun
          · intro _
            rw [hcalc]
            refine longestLoop_le _ ds d0 1 1 hsorted hsplit hcur hlong le_rfl le_rfl d0 1 ?_
            intro j hj
            have hj0 : j = 0 := by omega
            subst hj0
            simpa using hd0S

/-- Witness for `longest_streak_correct` at a concrete three-day history. -/
theorem longest_streak_correct_witness :
    ∃ d : Int, ∀ j : Nat, j < calculate_longest_streak
        [entryOnDay ("2024-01-05T10:00:00") 737794 50,
         entryOnDay ("2024-01-06T10:00:00") 737795 60,
         entryOnDay ("2024-01-07T10:00:00") 737796 70] →
      d + (j : Int) ∈ ([entryOnDay ("2024-01-05T10:00:00") 737794 50,
         entryOnDay ("2024-01-06T10:00:00") 737795 60,
         entryOnDay ("2024-01-07T10:00:00") 737796 70].map (fun e => e.date.day)) :=
  (longest_streak_correct _).2.1 (by simp)

end NovelWriter
